import Mathlib

/-!
# Verification of the PII redaction and audio-timestamp correlation engine

Shallow embedding of the core of the `sales-call-analyzer` repository:

* `presidio_audio_redactor/audio_redactor.py` — `AudioRedactor.analyze`,
  `AudioRedactor.anonymize`, `AudioRedactor._extract_word_timestamps`,
  `AudioRedactor._map_pii_to_timestamps`, `AudioRedactor.redact`;
* `services/transcriber.py` — `TranscriberService.transcribe_and_redact`,
  `TranscriberService._parse_segments`, `TranscriberService._redact_segment_text`.

Texts are modelled as `List Char` (Python `str` with character offsets),
confidence scores and audio times as `ℚ` (Python floats used only through
comparison and field copying in the verified code), fallible collaborator
calls as `Except E`-valued functions.  External collaborators (Whisper,
the Presidio analyzer and anonymizer engines) are parameters of the
embedding; the repository's own code is translated line by line.
-/

namespace PiiRedact

/-- Python `str.strip()`: drop leading and trailing whitespace. -/
def strip (s : List Char) : List Char :=
  ((s.dropWhile Char.isWhitespace).reverse.dropWhile Char.isWhitespace).reverse

/-- Does `sub` occur at the very beginning of `hay`? -/
def matchesAt : List Char → List Char → Bool
  | [], _ => true
  | _ :: _, [] => false
  | a :: as, b :: bs => a == b && matchesAt as bs

/-- Scan positions `p, p+1, …, p+fuel-1` for the first occurrence of `sub`. -/
def findFromAux (hay sub : List Char) : ℕ → ℕ → Option ℕ
  | _, 0 => none
  | p, fuel + 1 =>
    if matchesAt sub (hay.drop p) then some p else findFromAux hay sub (p + 1) fuel

/-- Python `hay.find(sub, s)` (as an `Option` instead of `-1`): the least
position `p ≥ s` with `p ≤ hay.length` where `sub` occurs in `hay`. -/
def findFrom (hay sub : List Char) (s : ℕ) : Option ℕ :=
  if s ≤ hay.length then findFromAux hay sub s (hay.length + 1 - s) else none

/-- Python `sub in hay` substring containment. -/
def containsSub (hay sub : List Char) : Bool :=
  (findFrom hay sub 0).isSome

/-- Python `t[a:b]` for `0 ≤ a ≤ b`. -/
def slice (t : List Char) (a b : ℕ) : List Char :=
  (t.drop a).take (b - a)

/-- `sub` occurs in `hay` at position `p` (and `p` is inside the scan range of
Python's `find`). -/
def OccursAt (hay sub : List Char) (p : ℕ) : Prop :=
  p ≤ hay.length ∧ matchesAt sub (hay.drop p) = true

instance (hay sub : List Char) (p : ℕ) : Decidable (OccursAt hay sub p) :=
  inferInstanceAs (Decidable (_ ∧ _))

theorem findFromAux_eq_some {hay sub : List Char} {s fuel p : ℕ}
    (h : findFromAux hay sub s fuel = some p) :
    s ≤ p ∧ p < s + fuel ∧ matchesAt sub (hay.drop p) = true ∧
      ∀ q, s ≤ q → q < p → matchesAt sub (hay.drop q) = false := by
  induction fuel generalizing s with
  | zero => simp [findFromAux] at h
  | succ n ih =>
    unfold findFromAux at h
    by_cases hm : matchesAt sub (hay.drop s) = true
    · simp [hm] at h
      subst h
      exact ⟨le_refl _, by omega, hm, fun q hq hq' => absurd hq' (by omega)⟩
    · simp [hm] at h
      obtain ⟨h1, h2, h3, h4⟩ := ih h
      refine ⟨by omega, by omega, h3, fun q hq hq' => ?_⟩
      rcases Nat.eq_or_lt_of_le hq with rfl | hlt
      · simpa using hm
      · exact h4 q hlt hq'

theorem findFromAux_eq_none {hay sub : List Char} {s fuel : ℕ}
    (h : findFromAux hay sub s fuel = none) :
    ∀ q, s ≤ q → q < s + fuel → matchesAt sub (hay.drop q) = false := by
  induction fuel generalizing s with
  | zero => intro q hq hq'; omega
  | succ n ih =>
    unfold findFromAux at h
    by_cases hm : matchesAt sub (hay.drop s) = true
    · simp [hm] at h
    · simp [hm] at h
      intro q hq hq'
      rcases Nat.eq_or_lt_of_le hq with rfl | hlt
      · simpa using hm
      · exact ih h q hlt (by omega)

theorem findFromAux_of_matches {hay sub : List Char} {s fuel p : ℕ}
    (hs : s ≤ p) (hp : p < s + fuel) (hm : matchesAt sub (hay.drop p) = true) :
    ∃ r, findFromAux hay sub s fuel = some r := by
  induction fuel generalizing s with
  | zero => omega
  | succ n ih =>
    unfold findFromAux
    by_cases h0 : matchesAt sub (hay.drop s) = true
    · exact ⟨s, by simp [h0]⟩
    · have hsp : s ≠ p := fun h => h0 (h ▸ hm)
      have ⟨r, hr⟩ := ih (s := s + 1) (by omega) (by omega)
      exact ⟨r, by simp [h0, hr]⟩

/-- Characterisation of `findFrom`: a `some p` answer is the first occurrence
at or after the start position. -/
theorem findFrom_eq_some {hay sub : List Char} {s p : ℕ}
    (h : findFrom hay sub s = some p) :
    s ≤ p ∧ OccursAt hay sub p ∧ ∀ q, s ≤ q → q < p → ¬ OccursAt hay sub q := by
  unfold findFrom at h
  by_cases hs : s ≤ hay.length
  · simp only [if_pos hs] at h
    obtain ⟨h1, h2, h3, h4⟩ := findFromAux_eq_some h
    exact ⟨h1, ⟨by omega, h3⟩, fun q hq hq' hocc => by
      have := h4 q hq hq'
      rw [hocc.2] at this
      exact Bool.noConfusion this⟩
  · simp [hs] at h

/-- Characterisation of `findFrom`: a `none` answer means no occurrence at or
after the start position. -/
theorem findFrom_eq_none {hay sub : List Char} {s : ℕ}
    (h : findFrom hay sub s = none) :
    ∀ q, s ≤ q → ¬ OccursAt hay sub q := by
  unfold findFrom at h
  intro q hq hocc
  have hql := hocc.1
  by_cases hs : s ≤ hay.length
  · simp only [if_pos hs] at h
    have := findFromAux_eq_none h q hq (by omega)
    rw [hocc.2] at this
    exact Bool.noConfusion this
  · exact hs (le_trans hq hocc.1)

theorem findFrom_isSome_of_occurs {hay sub : List Char} {s p : ℕ}
    (hs : s ≤ p) (hocc : OccursAt hay sub p) :
    ∃ r, findFrom hay sub s = some r := by
  unfold findFrom
  have hp := hocc.1
  have hsl : s ≤ hay.length := le_trans hs hocc.1
  rw [if_pos hsl]
  exact findFromAux_of_matches hs (by omega) hocc.2

/-- The empty list contains no nonempty substring. -/
theorem containsSub_nil {sub : List Char} (h : sub ≠ []) :
    containsSub [] sub = false := by
  cases sub with
  | nil => exact absurd rfl h
  | cons c cs =>
    simp [containsSub, findFrom, findFromAux, matchesAt]

theorem slice_ne_nil {t : List Char} {a b : ℕ} (hab : a < b) (hb : b ≤ t.length) :
    slice t a b ≠ [] := by
  have : (slice t a b).length = min (b - a) (t.length - a) := by
    simp [slice]
  intro hnil
  rw [hnil] at this
  simp at this
  omega

/-! ## Data model -/

/-- A detected PII span: Presidio `RecognizerResult` with fields
`entity_type`, `start`, `end`, `score`.  The Python `end` field is called
`stop` here (`end` is a Lean keyword). -/
structure Entity where
  entity_type : String
  start : ℕ
  stop : ℕ
  score : ℚ
deriving DecidableEq

/-- A Whisper word-timestamp dict `{word, start, end}`. -/
structure Word where
  word : List Char
  start : ℚ
  stop : ℚ
deriving DecidableEq

/-- A Whisper segment dict `{start, end, text, words}`; `words` is empty when
word timestamps were not requested. -/
structure Segment where
  start : ℚ
  stop : ℚ
  text : List Char
  words : List Word
deriving DecidableEq

/-- A Whisper transcription result `{text, segments}`. -/
structure Transcription where
  text : List Char
  segments : List Segment
deriving DecidableEq

/-- One entry of `pii_findings`: the keys `entity_type`, `text_start`,
`text_end`, `score`, `text` are always present; `audio_start`/`audio_end`
only when correlation matched at least one word. -/
structure PiiFinding where
  entity_type : String
  text_start : ℕ
  text_end : ℕ
  score : ℚ
  text : List Char
  audio_start : Option ℚ
  audio_end : Option ℚ
deriving DecidableEq

/-- The dict returned by `AudioRedactor.redact`. -/
structure RedactionResult where
  original_text : List Char
  redacted_text : List Char
  segments : List Segment
  pii_findings : List PiiFinding
deriving DecidableEq

/-- External collaborators of the engine: Whisper transcription (the audio
input is fixed inside it), the Presidio analyzer engine and the Presidio
anonymizer engine.  Each call may fail with an error of type `E` (a raised
exception). -/
structure Collaborators (E : Type) where
  transcribe : Bool → Except E Transcription
  analyzerEngine : List Char → String → Option (List String) → ℚ → Except E (List Entity)
  anonymizerEngine : List Char → List Entity → Except E (List Char)

/-! ## Correlation engine (`audio_redactor.py` lines 116–199) -/

/-- `AudioRedactor._extract_word_timestamps`: flatten all segments' word
lists into one ordered sequence, preserving segment order. -/
def extractWordTimestamps (transcription : Transcription) : List Word :=
  (transcription.segments.map Segment.words).flatten

/-- State of the character-to-word scan in `_map_pii_to_timestamps`: the
cursor `char_pos` and the partial map `char_to_word`. -/
structure MapState where
  charPos : ℕ
  charToWord : ℕ → Option ℕ

/-- One iteration of the `for idx, word_info in enumerate(word_timestamps)`
loop of `_map_pii_to_timestamps`: search for the stripped word text at or
after the cursor; on a hit at `p`, map `[p, p+len)` to this word's index and
move the cursor to `p+len`; on a miss, change nothing. -/
def stepWord (text : List Char) (st : MapState) (idx : ℕ) (w : Word) : MapState :=
  let ws := strip w.word
  match findFrom text ws st.charPos with
  | some p =>
    { charPos := p + ws.length
      charToWord := fun i => if p ≤ i ∧ i < p + ws.length then some idx else st.charToWord i }
  | none => st

/-- The character-to-word index built by `_map_pii_to_timestamps`
(lines 158–170): fold of `stepWord` over the enumerated word list, starting
from cursor `0` and the empty map. -/
def buildCharToWord (text : List Char) (words : List Word) : MapState :=
  words.enum.foldl (fun st iw => stepWord text st iw.1 iw.2) ⟨0, fun _ => none⟩

/-- One iteration of the `for char_idx in range(result.start, result.end)`
loop of `_map_pii_to_timestamps` on the accumulator
`(start_word_idx, end_word_idx)`: an unmapped character changes nothing; a
mapped character sets `start_word_idx` only if it is still unset and always
overwrites `end_word_idx`. -/
def scanStep (m : ℕ → Option ℕ) (acc : Option ℕ × Option ℕ) (i : ℕ) :
    Option ℕ × Option ℕ :=
  match m i with
  | some w => (some (acc.1.getD w), some w)
  | none => acc

/-- The `for char_idx in range(result.start, result.end)` loop of
`_map_pii_to_timestamps`: returns the final `(start_word_idx, end_word_idx)`
pair. -/
def scanEntity (m : ℕ → Option ℕ) (s e : ℕ) : Option ℕ × Option ℕ :=
  (List.range' s (e - s)).foldl (scanStep m) (none, none)

/-- Out-of-range default for `Word` list lookups (never reached: mapped word
indices are always in range). -/
def defaultWord : Word := ⟨[], 0, 0⟩

/-- The finding dict built by `_map_pii_to_timestamps` for one entity:
timestamps are attached exactly when both `start_word_idx` and
`end_word_idx` are set. -/
def mkFinding (text : List Char) (words : List Word) (m : ℕ → Option ℕ)
    (r : Entity) : PiiFinding :=
  let sw := scanEntity m r.start r.stop
  { entity_type := r.entity_type
    text_start := r.start
    text_end := r.stop
    score := r.score
    text := slice text r.start r.stop
    audio_start :=
      match sw with
      | (some si, some _) => some (words.getD si defaultWord).start
      | _ => none
    audio_end :=
      match sw with
      | (some _, some ei) => some (words.getD ei defaultWord).stop
      | _ => none }

/-- `AudioRedactor._map_pii_to_timestamps`: build the index, then produce one
finding per entity, in order. -/
def mapPiiToTimestamps (text : List Char) (piiResults : List Entity)
    (wordTimestamps : List Word) : List PiiFinding :=
  let st := buildCharToWord text wordTimestamps
  piiResults.map (mkFinding text wordTimestamps st.charToWord)

/-! ## Detection / anonymization orchestration (`audio_redactor.py` lines 66–270) -/

namespace AudioRedactor

/-- `AudioRedactor.analyze`: pass-through of all four arguments to the
analyzer engine collaborator. -/
def analyze (engine : List Char → String → Option (List String) → ℚ → Except E (List Entity))
    (text : List Char) (language : String) (entities : Option (List String))
    (score_threshold : ℚ) : Except E (List Entity) :=
  engine text language entities score_threshold

/-- `AudioRedactor.anonymize`: pass-through to the anonymizer engine
collaborator. -/
def anonymize (engine : List Char → List Entity → Except E (List Char))
    (text : List Char) (analyzer_results : List Entity) : Except E (List Char) :=
  engine text analyzer_results

/-- The finding dict built in the `return_timestamps=False` branch of
`redact` (lines 258–267). -/
def plainFinding (text : List Char) (r : Entity) : PiiFinding :=
  { entity_type := r.entity_type
    text_start := r.start
    text_end := r.stop
    score := r.score
    text := slice text r.start r.stop
    audio_start := none
    audio_end := none }

/-- `AudioRedactor.redact` (lines 201–270): transcribe, analyze, anonymize,
assemble the result, attaching timestamp-correlated findings when
`return_timestamps` is set.  An exception in any stage propagates (there is
no handler in the source). -/
def redact (C : Collaborators E) (language : String) (entities : Option (List String))
    (score_threshold : ℚ) (return_timestamps : Bool) : Except E RedactionResult := do
  let transcription ← C.transcribe return_timestamps
  let original_text := transcription.text
  let pii_results ← analyze C.analyzerEngine original_text language entities score_threshold
  let anonymized ← anonymize C.anonymizerEngine original_text pii_results
  pure {
    original_text := original_text
    redacted_text := anonymized
    segments := transcription.segments
    pii_findings :=
      if return_timestamps then
        mapPiiToTimestamps original_text pii_results (extractWordTimestamps transcription)
      else
        pii_results.map (plainFinding original_text) }

end AudioRedactor

/-! ## Collaborator models stipulated by the spec -/

/-- Model of the external Presidio `AnalyzerEngine` stipulated by the spec
and claims: a candidate generator `cand` assigns each candidate entity a
confidence score, and the engine returns exactly the candidates whose score
is at least `score_threshold`. -/
def filterEngine (cand : List Char → String → Option (List String) → List Entity)
    (text : List Char) (language : String) (entities : Option (List String))
    (score_threshold : ℚ) : Except E (List Entity) :=
  .ok ((cand text language entities).filter (fun r => decide (score_threshold ≤ r.score)))

/-- One span replacement: `text[:start] ++ placeholder(type) ++ text[end:]`. -/
def replaceSpan (ph : String → List Char) (text : List Char) (r : Entity) : List Char :=
  text.take r.start ++ ph r.entity_type ++ text.drop r.stop

/-- Insert an entity into a list sorted by decreasing `start`. -/
def insertByStart (r : Entity) : List Entity → List Entity
  | [] => [r]
  | f :: fs => if f.start ≤ r.start then r :: f :: fs else f :: insertByStart r fs

/-- Sort entities by decreasing `start` offset. -/
def sortByStartDesc (ents : List Entity) : List Entity :=
  ents.foldr insertByStart []

/-- Model of the external Presidio `AnonymizerEngine` stipulated by the spec
and claims: substitutes exactly the spans it is given, replacing each with
its per-type placeholder, rightmost span first so that earlier offsets stay
valid. -/
def spanSubstEngine (ph : String → List Char) (text : List Char)
    (ents : List Entity) : Except E (List Char) :=
  .ok ((sortByStartDesc ents).foldl (replaceSpan ph) text)

/-! ## Transcriber service (`services/transcriber.py`) -/

namespace TranscriberService

/-- The `(language, score_threshold)` argument pair that
`_redact_segment_text` passes to `analyze` (transcriber.py lines 145–149):
the literals `("en", 0.4)`, independent of the parameters of the enclosing
`transcribe_and_redact` call. -/
def segmentAnalyzeArgs : String × ℚ := ("en", 2/5)

/-- The fallible body of `_redact_segment_text` (the `try` block): analyze
this segment's own text with the hardcoded language/threshold, then
anonymize it. -/
def redactSegmentCore (C : Collaborators E) (text : List Char) : Except E (List Char) := do
  let pii_results ← AudioRedactor.analyze C.analyzerEngine text
    segmentAnalyzeArgs.1 none segmentAnalyzeArgs.2
  AudioRedactor.anonymize C.anonymizerEngine text pii_results

/-- `TranscriberService._redact_segment_text` (lines 127–158): empty text
returns `""`; any exception from analyze/anonymize is caught and converted to
`""` (fail-safe), never the raw text. -/
def redactSegmentText (C : Collaborators E) (text : List Char) : List Char :=
  if text = [] then []
  else
    match redactSegmentCore C text with
    | .ok t => t
    | .error _ => []

/-- One entry of the list returned by `_parse_segments`. -/
structure ParsedSegment where
  id : ℕ
  start : ℚ
  stop : ℚ
  text : List Char
  speaker : String
deriving DecidableEq

/-- One iteration of the `for i, seg in enumerate(segments)` loop in
`_parse_segments`. -/
def parseOneSegment (C : Collaborators E) (i : ℕ) (seg : Segment) : ParsedSegment :=
  let seg_text := strip seg.text
  { id := i
    start := seg.start
    stop := seg.stop
    text := if seg_text = [] then [] else redactSegmentText C seg_text
    speaker := "spk_" ++ toString (i % 2) }

/-- `TranscriberService._parse_segments` (lines 83–125); its
`original_text`/`redacted_text` parameters are unused in the source and
omitted here. -/
def parseSegments (C : Collaborators E) (segments : List Segment) : List ParsedSegment :=
  segments.enum.map (fun iseg => parseOneSegment C iseg.1 iseg.2)

/-- The dict returned by `transcribe_and_redact`. -/
structure TranscribeOutput where
  original_text : List Char
  redacted_text : List Char
  pii_findings : List PiiFinding
  segments : List ParsedSegment
  duration_sec : ℚ
  duration_min : ℚ
deriving DecidableEq

/-- Python `round(q, 1)` on ℚ (rounding of the rational value; Python's
float half-to-even behaviour at exact ties is not distinguished by any
verified property). -/
def roundTo1 (q : ℚ) : ℚ := (round (10 * q) : ℤ) / 10

/-- `TranscriberService.transcribe_and_redact` (lines 25–81): run
`AudioRedactor.redact` with the caller's language and threshold and
timestamps on, compute the duration from the last raw segment, and re-redact
every segment independently via `_parse_segments`. -/
def transcribeAndRedact (C : Collaborators E) (language : String)
    (score_threshold : ℚ) : Except E TranscribeOutput := do
  let result ← AudioRedactor.redact C language none score_threshold true
  let segments := result.segments
  let duration_sec : ℚ :=
    match segments.getLast? with
    | some s => s.stop
    | none => 0
  let parsed_segments := parseSegments C segments
  pure {
    original_text := result.original_text
    redacted_text := result.redacted_text
    pii_findings := result.pii_findings
    segments := parsed_segments
    duration_sec := duration_sec
    duration_min := roundTo1 (duration_sec / 60) }

end TranscriberService

/-! ## Lemmas: the per-entity character scan -/

theorem scan_foldl_fst_some (m : ℕ → Option ℕ) (l : List ℕ) (a : ℕ) (b : Option ℕ) :
    (l.foldl (scanStep m) (some a, b)).1 = some a := by
  induction l generalizing b with
  | nil => rfl
  | cons hd tl ih => cases h : m hd <;> simp [List.foldl_cons, scanStep, h, ih]

theorem scan_foldl_fst (m : ℕ → Option ℕ) (l : List ℕ) (b : Option ℕ) :
    (l.foldl (scanStep m) (none, b)).1 = l.findSome? m := by
  induction l generalizing b with
  | nil => simp
  | cons hd tl ih =>
    cases h : m hd with
    | none => simp [List.foldl_cons, scanStep, h, ih, List.findSome?_cons]
    | some w =>
      simp [List.foldl_cons, scanStep, h, List.findSome?_cons, scan_foldl_fst_some]

theorem scan_foldl_snd (m : ℕ → Option ℕ) (l : List ℕ) (acc : Option ℕ × Option ℕ) :
    (l.foldl (scanStep m) acc).2 = (l.reverse.findSome? m).or acc.2 := by
  induction l generalizing acc with
  | nil => simp
  | cons hd tl ih =>
    rw [List.foldl_cons, ih, List.reverse_cons, List.findSome?_append]
    cases h : m hd <;> cases htl : tl.reverse.findSome? m <;>
      simp [scanStep, h, htl, Option.or]

/-- `scanEntity` returns the word index of the first mapped character and the
word index of the last mapped character of the scanned range. -/
theorem scanEntity_eq (m : ℕ → Option ℕ) (s e : ℕ) :
    scanEntity m s e =
      ((List.range' s (e - s)).findSome? m,
       (List.range' s (e - s)).reverse.findSome? m) := by
  unfold scanEntity
  refine Prod.ext ?_ ?_
  · exact scan_foldl_fst m _ none
  · rw [scan_foldl_snd]; simp

theorem findSome?_range'_some {m : ℕ → Option ℕ} {s n w : ℕ}
    (h : (List.range' s n).findSome? m = some w) :
    ∃ i, s ≤ i ∧ i < s + n ∧ m i = some w ∧ ∀ j, s ≤ j → j < i → m j = none := by
  induction n generalizing s with
  | zero => simp at h
  | succ k ih =>
    rw [List.range'_succ] at h
    cases hm : m s with
    | none =>
      simp only [List.findSome?_cons, hm] at h
      obtain ⟨i, h1, h2, h3, h4⟩ := ih h
      refine ⟨i, by omega, by omega, h3, fun j hj hji => ?_⟩
      rcases Nat.eq_or_lt_of_le hj with rfl | h'
      · exact hm
      · exact h4 j h' hji
    | some v =>
      simp only [List.findSome?_cons, hm] at h
      rw [← h]
      exact ⟨s, le_refl _, by omega, hm, fun j hj hji => by omega⟩

theorem findSome?_range'_none {m : ℕ → Option ℕ} {s n : ℕ}
    (h : (List.range' s n).findSome? m = none) :
    ∀ i, s ≤ i → i < s + n → m i = none := by
  induction n generalizing s with
  | zero => intro i h1 h2; omega
  | succ k ih =>
    rw [List.range'_succ] at h
    intro i h1 h2
    cases hm : m s with
    | none =>
      simp only [List.findSome?_cons, hm] at h
      rcases Nat.eq_or_lt_of_le h1 with rfl | h'
      · exact hm
      · exact ih h i h' (by omega)
    | some v =>
      simp only [List.findSome?_cons, hm] at h
      exact Option.noConfusion h

theorem findSome?_range'_reverse_some {m : ℕ → Option ℕ} {s n w : ℕ}
    (h : (List.range' s n).reverse.findSome? m = some w) :
    ∃ i, s ≤ i ∧ i < s + n ∧ m i = some w ∧ ∀ j, i < j → j < s + n → m j = none := by
  induction n generalizing w with
  | zero => simp at h
  | succ k ih =>
    rw [List.range'_1_concat, List.reverse_append] at h
    simp only [List.reverse_singleton, List.singleton_append, List.findSome?_cons] at h
    cases hm : m (s + k) with
    | none =>
      simp only [hm] at h
      obtain ⟨i, h1, h2, h3, h4⟩ := ih h
      refine ⟨i, h1, by omega, h3, fun j hji hjn => ?_⟩
      rcases (by omega : j = s + k ∨ j < s + k) with rfl | h'
      · exact hm
      · exact h4 j hji h'
    | some v =>
      simp only [hm] at h
      rw [← h]
      exact ⟨s + k, by omega, by omega, hm, fun j hji hjn => by omega⟩

/-! ## Lemmas: the character-to-word index builder -/

theorem stepWord_of_found {text : List Char} {st : MapState} {idx : ℕ} {w : Word} {p : ℕ}
    (hf : findFrom text (strip w.word) st.charPos = some p) :
    stepWord text st idx w =
      { charPos := p + (strip w.word).length
        charToWord := fun i =>
          if p ≤ i ∧ i < p + (strip w.word).length then some idx else st.charToWord i } := by
  simp [stepWord, hf]

theorem stepWord_of_missing {text : List Char} {st : MapState} {idx : ℕ} {w : Word}
    (hf : findFrom text (strip w.word) st.charPos = none) :
    stepWord text st idx w = st := by
  simp [stepWord, hf]

/-- The cursor of the scan never moves left. -/
theorem stepWord_charPos_mono (text : List Char) (st : MapState) (idx : ℕ) (w : Word) :
    st.charPos ≤ (stepWord text st idx w).charPos := by
  cases hf : findFrom text (strip w.word) st.charPos with
  | none => rw [stepWord_of_missing hf]
  | some p =>
    rw [stepWord_of_found hf]
    have := (findFrom_eq_some hf).1
    simp only []
    omega

/-- A partial character-to-word map is monotone: characters further right are
mapped to words further right. -/
def MapMono (f : ℕ → Option ℕ) : Prop :=
  ∀ i j wi wj, f i = some wi → f j = some wj → i ≤ j → wi ≤ wj

/-- Invariant of the index-building loop after processing the first `idx`
words: every mapped character lies strictly left of the cursor, every mapped
word index is one of the processed words, and the map is monotone. -/
def BuildInv (idx : ℕ) (st : MapState) : Prop :=
  (∀ i w, st.charToWord i = some w → i < st.charPos ∧ w < idx) ∧
    MapMono st.charToWord

theorem stepWord_inv {text : List Char} {st : MapState} {idx : ℕ} {w : Word}
    (h : BuildInv idx st) : BuildInv (idx + 1) (stepWord text st idx w) := by
  obtain ⟨hb, hm⟩ := h
  cases hf : findFrom text (strip w.word) st.charPos with
  | none =>
    rw [stepWord_of_missing hf]
    exact ⟨fun i wi hi => ⟨(hb i wi hi).1, by have := (hb i wi hi).2; omega⟩, hm⟩
  | some p =>
    obtain ⟨hp, _, _⟩ := findFrom_eq_some hf
    rw [stepWord_of_found hf]
    constructor
    · intro i wi hi
      dsimp only at hi ⊢
      split at hi
      next hin =>
        injection hi with hi
        exact ⟨by omega, by omega⟩
      next hout =>
        have := hb i wi hi
        exact ⟨by omega, by omega⟩
    · intro i j wi wj hi hj hij
      dsimp only at hi hj
      split at hi <;> split at hj
      next h1 h2 =>
        injection hi with hi; injection hj with hj; omega
      next h1 h2 =>
        have := hb j wj hj
        omega
      next h1 h2 =>
        injection hj with hj
        have := hb i wi hi
        omega
      next h1 h2 => exact hm i j wi wj hi hj hij

theorem foldl_enumFrom_inv (text : List Char) (ws : List Word) :
    ∀ (k : ℕ) (st : MapState), BuildInv k st →
      BuildInv (k + ws.length)
        ((List.enumFrom k ws).foldl (fun st iw => stepWord text st iw.1 iw.2) st) := by
  induction ws with
  | nil => intro k st h; simpa using h
  | cons hd tl ih =>
    intro k st h
    rw [List.enumFrom_cons, List.foldl_cons]
    have h2 := ih (k + 1) (stepWord text st k hd) (stepWord_inv h)
    have h3 : k + (hd :: tl).length = (k + 1) + tl.length := by
      simp [List.length_cons]; omega
    rw [h3]
    exact h2

/-- After processing all words: every mapped character is left of the final
cursor, every mapped word index is a valid index into the word list, and the
map is monotone. -/
theorem buildCharToWord_inv (text : List Char) (words : List Word) :
    BuildInv words.length (buildCharToWord text words) := by
  have h0 : BuildInv 0 (⟨0, fun _ => none⟩ : MapState) :=
    ⟨fun i w h => Option.noConfusion h, fun i j wi wj hi => Option.noConfusion hi⟩
  have := foldl_enumFrom_inv text words 0 ⟨0, fun _ => none⟩ h0
  simpa [buildCharToWord, List.enum_eq_enumFrom] using this

theorem buildCharToWord_mono (text : List Char) (words : List Word) :
    MapMono (buildCharToWord text words).charToWord :=
  (buildCharToWord_inv text words).2

theorem buildCharToWord_bound (text : List Char) (words : List Word) :
    ∀ i w, (buildCharToWord text words).charToWord i = some w → w < words.length :=
  fun i w h => ((buildCharToWord_inv text words).1 i w h).2

/-- The index built from an empty word list maps no character. -/
theorem buildCharToWord_nil (text : List Char) :
    ∀ i, (buildCharToWord text []).charToWord i = none := fun _ => rfl

/-! ## Claims -/

/-- C9: `anonymize(text, [])` with an empty entity list returns the text
unchanged, given an anonymizer collaborator that substitutes exactly the
spans it is given. -/
theorem C9_anonymize_empty_round_trip (ph : String → List Char) (text : List Char) :
    AudioRedactor.anonymize (spanSubstEngine (E := Unit) ph) text [] = .ok text := rfl

/-- C7: with the external detector modelled as returning each candidate
entity exactly when its score is at least the threshold, `analyze` is the
score filter over the candidates; for `t1 < t2` the `(type, start, end)`
tuple set at threshold `t2` is a subset of the one at `t1`; and threshold
`0` filters out none of the (nonnegatively scored) candidates. -/
theorem C7_threshold_monotonicity
    (cand : List Char → String → Option (List String) → List Entity)
    (text : List Char) (language : String) (entities : Option (List String))
    (t1 t2 : ℚ) :
    (∀ thr : ℚ, AudioRedactor.analyze (filterEngine (E := Unit) cand) text language entities thr =
        .ok ((cand text language entities).filter (fun r => decide (thr ≤ r.score)))) ∧
    (t1 < t2 →
      ∀ ty s e, (ty, s, e) ∈ ((cand text language entities).filter
            (fun r => decide (t2 ≤ r.score))).map (fun r => (r.entity_type, r.start, r.stop)) →
        (ty, s, e) ∈ ((cand text language entities).filter
            (fun r => decide (t1 ≤ r.score))).map (fun r => (r.entity_type, r.start, r.stop))) ∧
    ((∀ r ∈ cand text language entities, 0 ≤ r.score) →
      AudioRedactor.analyze (filterEngine (E := Unit) cand) text language entities 0 =
        .ok (cand text language entities)) := by
  refine ⟨fun thr => rfl, fun h12 ty s e hmem => ?_, fun hnn => ?_⟩
  · simp only [List.mem_map] at hmem ⊢
    obtain ⟨r, hr, hre⟩ := hmem
    rw [List.mem_filter] at hr
    refine ⟨r, ?_, hre⟩
    rw [List.mem_filter]
    exact ⟨hr.1, decide_eq_true (le_trans (le_of_lt h12) (of_decide_eq_true hr.2))⟩
  · have hself : (cand text language entities).filter
        (fun r => decide ((0:ℚ) ≤ r.score)) = cand text language entities := by
      rw [List.filter_eq_self]
      intro a ha
      exact decide_eq_true (hnn a ha)
    unfold AudioRedactor.analyze filterEngine
    rw [hself]

/-- Witness for C7 at a concrete candidate list and thresholds `1 < 2`. -/
theorem C7_threshold_monotonicity_witness :
    ("P", 0, 1) ∈ (([⟨"P", 0, 1, 3⟩, ⟨"Q", 1, 2, 1⟩] : List Entity).filter
        (fun r => decide ((1 : ℚ) ≤ r.score))).map (fun r => (r.entity_type, r.start, r.stop)) ∧
    AudioRedactor.analyze
        (filterEngine (E := Unit) (fun _ _ _ => [⟨"P", 0, 1, 3⟩, ⟨"Q", 1, 2, 1⟩]))
        [] "en" none 0 = .ok [⟨"P", 0, 1, 3⟩, ⟨"Q", 1, 2, 1⟩] := by
  have h := C7_threshold_monotonicity (fun _ _ _ => [⟨"P", 0, 1, 3⟩, ⟨"Q", 1, 2, 1⟩])
    [] "en" none 1 2
  exact ⟨h.2.1 (by decide) "P" 0 1 (by decide), h.2.2 (by decide)⟩

/-- C8: a failure raised by the transcription, analysis, or anonymization
stage aborts the whole `redact` call with that failure; no (partial) result
dict is returned. -/
theorem C8_stage_failure_aborts {E : Type} (C : Collaborators E) (language : String)
    (entities : Option (List String)) (score_threshold : ℚ) (return_timestamps : Bool)
    (e : E) :
    (C.transcribe return_timestamps = .error e →
      AudioRedactor.redact C language entities score_threshold return_timestamps = .error e) ∧
    (∀ tr, C.transcribe return_timestamps = .ok tr →
      AudioRedactor.analyze C.analyzerEngine tr.text language entities score_threshold = .error e →
      AudioRedactor.redact C language entities score_threshold return_timestamps = .error e) ∧
    (∀ tr pii, C.transcribe return_timestamps = .ok tr →
      AudioRedactor.analyze C.analyzerEngine tr.text language entities score_threshold = .ok pii →
      AudioRedactor.anonymize C.anonymizerEngine tr.text pii = .error e →
      AudioRedactor.redact C language entities score_threshold return_timestamps = .error e) := by
  refine ⟨fun h1 => ?_, fun tr h1 h2 => ?_, fun tr pii h1 h2 h3 => ?_⟩ <;>
    simp [AudioRedactor.redact, Bind.bind, Except.bind, h1, *]

/-- Witness for C8: a failing transcription collaborator aborts the call. -/
theorem C8_stage_failure_aborts_witness :
    AudioRedactor.redact
      (⟨fun _ => .error 7, fun _ _ _ _ => .ok [], fun t _ => .ok t⟩ : Collaborators ℕ)
      "en" none 0 true = .error 7 := by
  exact (C8_stage_failure_aborts
    (⟨fun _ => .error 7, fun _ _ _ _ => .ok [], fun t _ => .ok t⟩ : Collaborators ℕ)
    "en" none 0 true 7).1 rfl

/-- C4: the `segments` field of a successful `AudioRedactor.redact` result is
the transcription's raw segment list passed through unchanged (no redaction
applied by `redact` itself); the per-segment redaction happens only in the
calling layer, which replaces them with `_parse_segments` output. -/
theorem C4_segments_passthrough {E : Type} (C : Collaborators E) :
    (∀ (language : String) (entities : Option (List String)) (score_threshold : ℚ)
        (return_timestamps : Bool) (r : RedactionResult),
      AudioRedactor.redact C language entities score_threshold return_timestamps = .ok r →
      ∃ tr, C.transcribe return_timestamps = .ok tr ∧ r.segments = tr.segments) ∧
    (∀ (language : String) (score_threshold : ℚ) (out : TranscriberService.TranscribeOutput),
      TranscriberService.transcribeAndRedact C language score_threshold = .ok out →
      ∃ r, AudioRedactor.redact C language none score_threshold true = .ok r ∧
        out.segments = TranscriberService.parseSegments C r.segments) := by
  constructor
  · intro language entities score_threshold return_timestamps r h
    cases h1 : C.transcribe return_timestamps with
    | error e => simp [AudioRedactor.redact, Bind.bind, Except.bind, h1] at h
    | ok tr =>
      refine ⟨tr, rfl, ?_⟩
      cases h2 : AudioRedactor.analyze C.analyzerEngine tr.text language entities score_threshold with
      | error e => simp [AudioRedactor.redact, Bind.bind, Except.bind, h1, h2] at h
      | ok pii =>
        cases h3 : AudioRedactor.anonymize C.anonymizerEngine tr.text pii with
        | error e => simp [AudioRedactor.redact, Bind.bind, Except.bind, h1, h2, h3] at h
        | ok anon =>
          simp only [AudioRedactor.redact, Bind.bind, Except.bind, h1, h2, h3] at h
          simp only [pure, Except.pure, Except.ok.injEq] at h
          rw [← h]
  · intro language score_threshold out h
    cases h1 : AudioRedactor.redact C language none score_threshold true with
    | error e =>
      simp [TranscriberService.transcribeAndRedact, Bind.bind, Except.bind, h1] at h
    | ok r =>
      refine ⟨r, rfl, ?_⟩
      simp only [TranscriberService.transcribeAndRedact, Bind.bind, Except.bind, h1] at h
      simp only [pure, Except.pure, Except.ok.injEq] at h
      rw [← h]

/-- Witness for C4 with an all-successful collaborator set: the raw segment
(whose text still contains the name) flows through `redact` unchanged. -/
theorem C4_segments_passthrough_witness :
    ∃ tr, (⟨fun _ => .ok ⟨"Bob here".data, [⟨0, 1, "Bob here".data, []⟩]⟩,
            fun _ _ _ _ => .ok [], fun t _ => .ok t⟩ : Collaborators ℕ).transcribe true =
        .ok tr ∧
      (⟨"Bob here".data, "Bob here".data, [⟨0, 1, "Bob here".data, []⟩], []⟩ :
        RedactionResult).segments = tr.segments := by
  exact (C4_segments_passthrough
    (⟨fun _ => .ok ⟨"Bob here".data, [⟨0, 1, "Bob here".data, []⟩]⟩,
      fun _ _ _ _ => .ok [], fun t _ => .ok t⟩ : Collaborators ℕ)).1
    "en" none 0 true _ rfl

/-- C1 counterexample: a top-level call with language `"es"` and threshold
`0.9` does not reach the per-segment analyze call, which always uses the
hardcoded literals `("en", 0.4)`; a probing analyzer collaborator that
reports the language it receives observes `"en"` flowing through
`_redact_segment_text`. -/
theorem C1_counterexample :
    TranscriberService.segmentAnalyzeArgs ≠ ("es", (9:ℚ)/10) ∧
    TranscriberService.redactSegmentText
      (⟨fun _ => .error (), fun _ lang _ _ => .ok [⟨lang, 0, 0, 0⟩],
        fun _ ents => .ok ((ents.map (fun r => r.entity_type.data)).flatten)⟩ :
        Collaborators Unit) "x".data = "en".data :=
  ⟨by simp [TranscriberService.segmentAnalyzeArgs], rfl⟩

/-- C1 amended: the analyze call inside `_redact_segment_text` always runs
with language `"en"` and score_threshold `0.4`, independently of the
top-level `transcribe_and_redact` arguments; the segment policy coincides
with the top-level policy exactly when the top-level call uses
`("en", 0.4)`. -/
theorem C1_amended_segment_analyze_args (language : String) (score_threshold : ℚ) :
    TranscriberService.segmentAnalyzeArgs = ("en", 2/5) ∧
    (TranscriberService.segmentAnalyzeArgs = (language, score_threshold) ↔
      language = "en" ∧ score_threshold = 2/5) := by
  refine ⟨rfl, ?_⟩
  unfold TranscriberService.segmentAnalyzeArgs
  rw [Prod.ext_iff]
  simp [eq_comm]

/-- Witness for C1 (amended): instantiated at the top-level arguments
`("es", 0.9)`. -/
theorem C1_amended_segment_analyze_args_witness :
    TranscriberService.segmentAnalyzeArgs = ("en", 2/5) :=
  (C1_amended_segment_analyze_args "es" (9/10)).1

/-- C2: assuming the anonymizer collaborator's output never contains a span
it was asked to replace, the final text of a segment does not contain the
raw substring of any entity detected by the analyze call inside
`_redact_segment_text` on that segment's own text. -/
theorem C2_segment_leak_freedom {E : Type} (C : Collaborators E)
    (hAnon : ∀ t ents out, C.anonymizerEngine t ents = .ok out →
      ∀ r ∈ ents, slice t r.start r.stop ≠ [] →
        containsSub out (slice t r.start r.stop) = false)
    (text : List Char) (ents : List Entity)
    (hA : AudioRedactor.analyze C.analyzerEngine text
      TranscriberService.segmentAnalyzeArgs.1 none
      TranscriberService.segmentAnalyzeArgs.2 = .ok ents)
    (r : Entity) (hr : r ∈ ents) (h1 : r.start < r.stop) (h2 : r.stop ≤ text.length) :
    containsSub (TranscriberService.redactSegmentText C text)
      (slice text r.start r.stop) = false := by
  have hne : slice text r.start r.stop ≠ [] := slice_ne_nil h1 h2
  unfold TranscriberService.redactSegmentText
  by_cases ht : text = []
  · subst ht
    simp at h2
    omega
  · rw [if_neg ht]
    cases hcore : TranscriberService.redactSegmentCore C text with
    | error e => exact containsSub_nil hne
    | ok out =>
      unfold TranscriberService.redactSegmentCore at hcore
      simp only [Bind.bind, Except.bind, hA] at hcore
      exact hAnon text ents out hcore r hr hne

/-- Witness for C2: a detector reporting one entity on a one-character
segment together with an anonymizer that erases everything. -/
theorem C2_segment_leak_freedom_witness :
    containsSub
      (TranscriberService.redactSegmentText
        (⟨fun _ => .error (), fun _ _ _ _ => .ok [⟨"X", 0, 1, 1⟩],
          fun _ _ => .ok []⟩ : Collaborators Unit) "x".data)
      (slice "x".data 0 1) = false := by
  refine C2_segment_leak_freedom
    (⟨fun _ => .error (), fun _ _ _ _ => .ok [⟨"X", 0, 1, 1⟩],
      fun _ _ => .ok []⟩ : Collaborators Unit)
    ?_ "x".data [⟨"X", 0, 1, 1⟩] rfl
    ⟨"X", 0, 1, 1⟩ (by simp) (by decide) (by decide)
  intro t ents out h r hr hne
  injection h with h
  subst h
  exact containsSub_nil hne

/-- C3: if the per-segment redaction of a segment raises, that segment's
output text is the empty string, the exception is not propagated, and the
enclosing parse still returns one output per input segment, each computed
from its own input segment alone. -/
theorem C3_segment_failure_fail_safe {E : Type} (C : Collaborators E)
    (segments : List Segment) (k : ℕ) (seg : Segment) (e : E)
    (hk : segments[k]? = some seg)
    (hfail : TranscriberService.redactSegmentCore C (strip seg.text) = .error e) :
    ((TranscriberService.parseSegments C segments)[k]?.map
        TranscriberService.ParsedSegment.text) = some [] ∧
    (TranscriberService.parseSegments C segments).length = segments.length ∧
    ∀ j sj, segments[j]? = some sj →
      (TranscriberService.parseSegments C segments)[j]? =
        some (TranscriberService.parseOneSegment C j sj) := by
  have hget : ∀ j sj, segments[j]? = some sj →
      (TranscriberService.parseSegments C segments)[j]? =
        some (TranscriberService.parseOneSegment C j sj) := by
    intro j sj hj
    unfold TranscriberService.parseSegments
    rw [List.getElem?_map, List.getElem?_enum, hj]
    rfl
  refine ⟨?_, ?_, hget⟩
  · rw [hget k seg hk]
    have htext : (TranscriberService.parseOneSegment C k seg).text = [] := by
      unfold TranscriberService.parseOneSegment
      dsimp only
      by_cases hs : strip seg.text = []
      · rw [if_pos hs]
      · rw [if_neg hs]
        unfold TranscriberService.redactSegmentText
        rw [if_neg hs, hfail]
    simp [htext]
  · simp [TranscriberService.parseSegments, List.enum_length]

/-- Witness for C3: a one-segment list whose redaction fails with error `3`. -/
theorem C3_segment_failure_fail_safe_witness :
    ((TranscriberService.parseSegments
        (⟨fun _ => .error 3, fun _ _ _ _ => .error 3, fun t _ => .ok t⟩ : Collaborators ℕ)
        [⟨0, 1, "Ann".data, []⟩])[0]?.map TranscriberService.ParsedSegment.text) = some [] ∧
    (TranscriberService.parseSegments
        (⟨fun _ => .error 3, fun _ _ _ _ => .error 3, fun t _ => .ok t⟩ : Collaborators ℕ)
        [⟨0, 1, "Ann".data, []⟩]).length = 1 := by
  have h := C3_segment_failure_fail_safe
    (⟨fun _ => .error 3, fun _ _ _ _ => .error 3, fun t _ => .ok t⟩ : Collaborators ℕ)
    [⟨0, 1, "Ann".data, []⟩] 0 ⟨0, 1, "Ann".data, []⟩ 3 rfl rfl
  exact ⟨h.1, h.2.1⟩

/-- C10: `_map_pii_to_timestamps` returns exactly one finding per input
entity, in the input order, and each finding preserves the entity's type,
character span, and score: correlation never drops, reorders, or alters
entities. -/
theorem C10_correlation_frame (text : List Char) (pii : List Entity) (words : List Word) :
    (mapPiiToTimestamps text pii words).length = pii.length ∧
    ∀ (k : ℕ) (r : Entity), pii[k]? = some r →
      ∃ f : PiiFinding, (mapPiiToTimestamps text pii words)[k]? = some f ∧
        f.entity_type = r.entity_type ∧ f.text_start = r.start ∧
        f.text_end = r.stop ∧ f.score = r.score := by
  constructor
  · simp [mapPiiToTimestamps]
  · intro k r hk
    refine ⟨mkFinding text words (buildCharToWord text words).charToWord r,
      ?_, rfl, rfl, rfl, rfl⟩
    unfold mapPiiToTimestamps
    rw [List.getElem?_map, hk]
    rfl

/-- Witness for C10: one entity, empty word list. -/
theorem C10_correlation_frame_witness :
    ((mapPiiToTimestamps "Hi Bob".data [⟨"PERSON", 3, 6, 1⟩] [])[0]?.map
        PiiFinding.entity_type) = some "PERSON" ∧
    (mapPiiToTimestamps "Hi Bob".data [⟨"PERSON", 3, 6, 1⟩] []).length = 1 := by
  have h := C10_correlation_frame "Hi Bob".data [⟨"PERSON", 3, 6, 1⟩] []
  obtain ⟨f, hf, h1, -, -, -⟩ := h.2 0 ⟨"PERSON", 3, 6, 1⟩ rfl
  exact ⟨by rw [hf, Option.map_some', h1], h.1⟩

/-- C6: the character-to-word index is built by a single left-to-right scan
with a monotonic cursor starting at `0`: `buildCharToWord` is the fold of
`stepWord` over the enumerated word list from cursor `0` and the empty map,
and one step searches for the trimmed word text at or after the cursor: the
first occurrence `p` at or after the cursor (ties among duplicate
occurrences resolve to it) maps every character of `[p, p + len)` to this
word's index and advances the cursor to `p + len`; a word not found at or
after the cursor contributes no mapping and leaves the cursor where it was;
the cursor never moves left. -/
theorem C6_char_to_word_scan (text : List Char) (words : List Word) :
    buildCharToWord text words =
      words.enum.foldl (fun st iw => stepWord text st iw.1 iw.2) ⟨0, fun _ => none⟩ ∧
    ∀ (st : MapState) (idx : ℕ) (w : Word),
      st.charPos ≤ (stepWord text st idx w).charPos ∧
      (∀ p, OccursAt text (strip w.word) p → st.charPos ≤ p →
        (∀ q, q < p → st.charPos ≤ q → ¬ OccursAt text (strip w.word) q) →
        (stepWord text st idx w).charPos = p + (strip w.word).length ∧
        ∀ i, (stepWord text st idx w).charToWord i =
          if p ≤ i ∧ i < p + (strip w.word).length then some idx
          else st.charToWord i) ∧
      ((∀ p, st.charPos ≤ p → ¬ OccursAt text (strip w.word) p) →
        stepWord text st idx w = st) := by
  refine ⟨rfl, fun st idx w => ⟨stepWord_charPos_mono text st idx w, ?_, ?_⟩⟩
  · intro p hocc hp hmin
    obtain ⟨r', hr⟩ := findFrom_isSome_of_occurs hp hocc
    obtain ⟨hr1, hr2, hr3⟩ := findFrom_eq_some hr
    have hrp : r' = p := by
      by_contra hne
      rcases Nat.lt_or_ge r' p with hlt | hge
      · exact hmin r' hlt hr1 hr2
      · exact hr3 p hp (by omega) hocc
    subst hrp
    rw [stepWord_of_found hr]
    exact ⟨rfl, fun i => rfl⟩
  · intro hnone
    cases hf : findFrom text (strip w.word) st.charPos with
    | none => exact stepWord_of_missing hf
    | some p =>
      obtain ⟨h1, h2, -⟩ := findFrom_eq_some hf
      exact absurd h2 (hnone p h1)

/-- Witness for C6: in `"ab ab"` with cursor `1`, the word `"ab"` matches at
its second occurrence (position 3), maps `[3, 5)` to the word's index, and
moves the cursor to 5. -/
theorem C6_char_to_word_scan_witness :
    (stepWord "ab ab".data ⟨1, fun _ => none⟩ 7 ⟨"ab".data, 0, 0⟩).charPos = 5 ∧
    (stepWord "ab ab".data ⟨1, fun _ => none⟩ 7 ⟨"ab".data, 0, 0⟩).charToWord 3 = some 7 := by
  have h := (C6_char_to_word_scan "ab ab".data []).2 ⟨1, fun _ => none⟩ 7 ⟨"ab".data, 0, 0⟩
  obtain ⟨hcp, hmap⟩ := h.2.1 3 (by decide) (by decide) (by decide)
  refine ⟨?_, ?_⟩
  · rw [hcp]
    decide
  · rw [hmap 3]
    decide

/-- Word index `w` is matched by some character of `[s, e)` under map `m`. -/
def MatchedWord (m : ℕ → Option ℕ) (s e w : ℕ) : Prop :=
  ∃ i, s ≤ i ∧ i < e ∧ m i = some w

/-- C5: correlation scans the character range `[start_char, end_char)` of an
entity: if at least one character is mapped, the finding carries
`audio_start` equal to the start time of the minimum matched word index and
`audio_end` equal to the end time of the maximum matched word index; if no
character in range is mapped (in particular when the word list is empty),
the entity is still returned, with no timestamps, and the call never
fails. -/
theorem C5_entity_timestamp_correlation (text : List Char) (words : List Word)
    (pii : List Entity) (k : ℕ) (r : Entity) (hk : pii[k]? = some r) :
    ∃ f, (mapPiiToTimestamps text pii words)[k]? = some f ∧
      ((∃ i, r.start ≤ i ∧ i < r.stop ∧
          ((buildCharToWord text words).charToWord i).isSome) →
        ∃ wmin wmax,
          MatchedWord (buildCharToWord text words).charToWord r.start r.stop wmin ∧
          MatchedWord (buildCharToWord text words).charToWord r.start r.stop wmax ∧
          (∀ w, MatchedWord (buildCharToWord text words).charToWord r.start r.stop w →
            wmin ≤ w ∧ w ≤ wmax) ∧
          wmax < words.length ∧
          f.audio_start = some ((words.getD wmin defaultWord).start) ∧
          f.audio_end = some ((words.getD wmax defaultWord).stop)) ∧
      ((∀ i, r.start ≤ i → i < r.stop →
          (buildCharToWord text words).charToWord i = none) →
        f.audio_start = none ∧ f.audio_end = none) ∧
      (words = [] → f.audio_start = none ∧ f.audio_end = none) := by
  have hmap : (mapPiiToTimestamps text pii words)[k]? =
      some (mkFinding text words (buildCharToWord text words).charToWord r) := by
    unfold mapPiiToTimestamps
    rw [List.getElem?_map, hk]
    rfl
  have hnoneCase : (∀ i, r.start ≤ i → i < r.stop →
      (buildCharToWord text words).charToWord i = none) →
      (mkFinding text words (buildCharToWord text words).charToWord r).audio_start = none ∧
      (mkFinding text words (buildCharToWord text words).charToWord r).audio_end = none := by
    intro hnone
    have hfst : (List.range' r.start (r.stop - r.start)).findSome?
        (buildCharToWord text words).charToWord = none := by
      rw [List.findSome?_eq_none_iff]
      intro x hx
      rw [List.mem_range'_1] at hx
      exact hnone x hx.1 (by omega)
    have hsnd : (List.range' r.start (r.stop - r.start)).reverse.findSome?
        (buildCharToWord text words).charToWord = none := by
      rw [List.findSome?_eq_none_iff]
      intro x hx
      rw [List.mem_reverse, List.mem_range'_1] at hx
      exact hnone x hx.1 (by omega)
    have hsw : scanEntity (buildCharToWord text words).charToWord r.start r.stop =
        (none, none) := by
      rw [scanEntity_eq, hfst, hsnd]
    constructor <;> simp [mkFinding, hsw]
  refine ⟨mkFinding text words (buildCharToWord text words).charToWord r,
    hmap, ?_, hnoneCase, fun hw => hnoneCase (fun i h1 h2 => by
      rw [hw]
      exact buildCharToWord_nil text i)⟩
  intro hx
  obtain ⟨i, his, hie, hsome⟩ := hx
  cases hfst : (List.range' r.start (r.stop - r.start)).findSome?
      (buildCharToWord text words).charToWord with
  | none =>
    exfalso
    have := findSome?_range'_none hfst i his (by omega)
    rw [this] at hsome
    exact Bool.noConfusion hsome
  | some wf =>
    cases hsnd : (List.range' r.start (r.stop - r.start)).reverse.findSome?
        (buildCharToWord text words).charToWord with
    | none =>
      exfalso
      rw [List.findSome?_eq_none_iff] at hsnd
      have := hsnd i (by rw [List.mem_reverse, List.mem_range'_1]; omega)
      rw [this] at hsome
      exact Bool.noConfusion hsome
    | some wl =>
      obtain ⟨i0, h0s, h0e, h0m, h0min⟩ := findSome?_range'_some hfst
      obtain ⟨i1, h1s, h1e, h1m, h1max⟩ := findSome?_range'_reverse_some hsnd
      have hsw : scanEntity (buildCharToWord text words).charToWord r.start r.stop =
          (some wf, some wl) := by
        rw [scanEntity_eq, hfst, hsnd]
      refine ⟨wf, wl, ⟨i0, h0s, by omega, h0m⟩, ⟨i1, h1s, by omega, h1m⟩,
        ?_, buildCharToWord_bound text words i1 wl h1m, ?_, ?_⟩
      · intro w hw
        obtain ⟨j, hjs, hje, hjm⟩ := hw
        constructor
        · have hij : i0 ≤ j := by
            by_contra hlt
            push_neg at hlt
            have := h0min j hjs hlt
            rw [this] at hjm
            exact Option.noConfusion hjm
          exact buildCharToWord_mono text words i0 j wf w h0m hjm hij
        · have hij : j ≤ i1 := by
            by_contra hlt
            push_neg at hlt
            have := h1max j hlt (by omega)
            rw [this] at hjm
            exact Option.noConfusion hjm
          exact buildCharToWord_mono text words j i1 w wl hjm h1m hij
      · simp [mkFinding, hsw]
      · simp [mkFinding, hsw]

/-- Witness for C5: the spec's own alignment example — transcript
`"Hello John Smith"`, three timed words, entity over characters 6–16 —
yields `audio_start` 0.4 and `audio_end` 1.0. -/
theorem C5_entity_timestamp_correlation_witness :
    ((mapPiiToTimestamps "Hello John Smith".data [⟨"PERSON", 6, 16, 1⟩]
        [⟨"Hello".data, 0, 2/5⟩, ⟨"John".data, 2/5, 7/10⟩, ⟨"Smith".data, 7/10, 1⟩])[0]?.map
      (fun f => (f.audio_start, f.audio_end))) = some (some (2/5), some 1) := by
  obtain ⟨f, hf, -, -, -⟩ := C5_entity_timestamp_correlation
    "Hello John Smith".data
    [⟨"Hello".data, 0, 2/5⟩, ⟨"John".data, 2/5, 7/10⟩, ⟨"Smith".data, 7/10, 1⟩]
    [⟨"PERSON", 6, 16, 1⟩] 0 ⟨"PERSON", 6, 16, 1⟩ rfl
  have hfc : some (mkFinding "Hello John Smith".data
      [⟨"Hello".data, 0, 2/5⟩, ⟨"John".data, 2/5, 7/10⟩, ⟨"Smith".data, 7/10, 1⟩]
      (buildCharToWord "Hello John Smith".data
        [⟨"Hello".data, 0, 2/5⟩, ⟨"John".data, 2/5, 7/10⟩,
          ⟨"Smith".data, 7/10, 1⟩]).charToWord
      ⟨"PERSON", 6, 16, 1⟩) = some f := by
    rw [← hf]
    exact rfl
  injection hfc with hfc
  rw [hf, ← hfc]
  rfl

end PiiRedact
